import Mathlib

/-!
Verification of the `python_ast_helper` analyzer of the Cartographer
repository (`src/extractors/python_ast_helper.py`).

The analyzer parses Python source text into an AST and extracts, for every
function and async-function definition, a record with the definition's name,
line span, and the deduplicated set of call-target names found in its
subtree.  We embed the relevant fragment of the Python `ast` node hierarchy
as an inductive type, embed CPython's `ast.walk` (a queue-based, hence
breadth-first, traversal) faithfully, and translate the three Python
functions `extract_function_calls`, `extract_functions` and `main`.

Python's `ast.parse` is external library code, so parsing is modelled as an
abstract parameter `parse : String → String → Except String Node`; the
analyzer is verified for every possible parse outcome.
-/

namespace Cartographer

/-- The fragment of the Python AST node hierarchy relevant to the analyzer.
Constructors mirror the CPython `ast` classes the code inspects
(`FunctionDef`, `AsyncFunctionDef`, `Call`, `Name`, `Attribute`) plus the
surrounding structure (`Module`, `ClassDef`, `Lambda`); every other
statement or expression kind is collapsed into `Other`, which keeps only
its child nodes — exactly how the analyzer treats them (traversed, never
matched).  `end_lineno` is `Option Nat` because the code guards it with
`hasattr(node, 'end_lineno')`. -/
inductive Node : Type where
  | Module (body : List Node)
  | FunctionDef (name : String) (lineno : Nat) (end_lineno : Option Nat)
      (decorator_list : List Node) (defaults : List Node) (body : List Node)
  | AsyncFunctionDef (name : String) (lineno : Nat) (end_lineno : Option Nat)
      (decorator_list : List Node) (defaults : List Node) (body : List Node)
  | ClassDef (name : String) (body : List Node)
  | Call (func : Node) (args : List Node)
  | Name (id : String)
  | Attribute (value : Node) (attr : String)
  | Lambda (body : Node)
  | Other (kids : List Node)

/-- The child nodes of a node, in CPython field order (`ast.iter_child_nodes`).
For a definition, the field order is `args` (which holds the default-value
expressions), then `body`, then `decorator_list`. -/
def children : Node → List Node
  | .Module body => body
  | .FunctionDef _ _ _ decs defaults body => defaults ++ body ++ decs
  | .AsyncFunctionDef _ _ _ decs defaults body => defaults ++ body ++ decs
  | .ClassDef _ body => body
  | .Call f args => f :: args
  | .Name _ => []
  | .Attribute v _ => [v]
  | .Lambda b => [b]
  | .Other kids => kids

mutual
/-- Total number of nodes in a tree (used as the termination measure for
the traversals). -/
def Node.size : Node → Nat
  | .Module body => 1 + sizeList body
  | .FunctionDef _ _ _ decs defaults body =>
      1 + sizeList defaults + sizeList body + sizeList decs
  | .AsyncFunctionDef _ _ _ decs defaults body =>
      1 + sizeList defaults + sizeList body + sizeList decs
  | .ClassDef _ body => 1 + sizeList body
  | .Call f args => 1 + Node.size f + sizeList args
  | .Name _ => 1
  | .Attribute v _ => 1 + Node.size v
  | .Lambda b => 1 + Node.size b
  | .Other kids => 1 + sizeList kids

/-- Total number of nodes in a forest. -/
def sizeList : List Node → Nat
  | [] => 0
  | n :: ns => Node.size n + sizeList ns
end

theorem sizeList_append (a b : List Node) :
    sizeList (a ++ b) = sizeList a + sizeList b := by
  induction a with
  | nil => simp [sizeList]
  | cons n ns ih => simp [sizeList, ih]; omega

theorem sizeList_children_lt (n : Node) : sizeList (children n) < Node.size n := by
  cases n <;> simp [children, Node.size, sizeList, sizeList_append] <;> omega

theorem size_pos (n : Node) : 0 < Node.size n := by
  cases n <;> simp [Node.size] <;> omega

/-- CPython's `ast.walk`, embedded faithfully: it keeps a queue (a `deque`)
of pending nodes, repeatedly pops the front node, yields it, and appends its
children to the back of the queue.  This is a breadth-first traversal. -/
def walkList : List Node → List Node
  | [] => []
  | n :: todo => n :: walkList (todo ++ children n)
termination_by l => sizeList l
decreasing_by
  simp [sizeList, sizeList_append]
  have := sizeList_children_lt n
  omega

/-- Embeds `ast.walk(node)`: the walk starting from the queue `[node]`. -/
def walk (n : Node) : List Node := walkList [n]

/-- The call-target name the analyzer records for a node, if any:
`extract_function_calls` appends `child.func.id` when the callee is a bare
`Name`, `child.func.attr` when the callee is an `Attribute`, and nothing
for any other node or callee shape. -/
def callTarget : Node → Option String
  | .Call (.Name s) _ => some s
  | .Call (.Attribute _ s) _ => some s
  | _ => none

/-- Embeds `extract_function_calls(node)`: walk the node's entire subtree and
collect the call-target names of every `Call` node, in walk order. -/
def extract_function_calls (node : Node) : List String :=
  (walk node).filterMap callTarget

/-- The output record built for one definition: name, 1-based start line,
end line (falling back to the start line when the grammar reports none),
and the deduplicated call-target names. -/
structure FunctionRecord where
  name : String
  start_line : Nat
  end_line : Nat
  calls : List String
deriving DecidableEq, Repr

/-- The body of the loop in `extract_functions`: a `FunctionDef` or
`AsyncFunctionDef` node yields a record (with `calls` deduplicated, the
Lean counterpart of `list(set(calls))`), every other node yields nothing. -/
def recordOf : Node → Option FunctionRecord
  | .FunctionDef nm ln el decs defaults body =>
      some { name := nm, start_line := ln, end_line := el.getD ln,
             calls := (extract_function_calls
               (.FunctionDef nm ln el decs defaults body)).dedup }
  | .AsyncFunctionDef nm ln el decs defaults body =>
      some { name := nm, start_line := ln, end_line := el.getD ln,
             calls := (extract_function_calls
               (.AsyncFunctionDef nm ln el decs defaults body)).dedup }
  | _ => none

/-- Embeds `extract_functions(tree, file_path)`: walk the whole tree and collect a
record for every definition node encountered.  The `file_path` argument is
accepted and ignored, exactly as in the source. -/
def extract_functions (tree : Node) (file_path : String) : List FunctionRecord :=
  (walk tree).filterMap recordOf

/-- The analysis step of `main`, with Python's external `ast.parse`
abstracted as a `parse` function from content and filename to either a
syntax tree or an error message: on a parse error the whole analysis fails
with that error, otherwise the extracted records are returned. -/
def analyze (parse : String → String → Except String Node)
    (file content : String) : Except String (List FunctionRecord) :=
  match parse content file with
  | .error e => .error e
  | .ok tree => .ok (extract_functions tree file)

/-- The JSON request read from standard input, with each of the two
expected fields possibly absent (`input_data['file']` /
`input_data['content']` raise `KeyError` on a missing key). -/
structure RawRequest where
  file : Option String
  content : Option String

/-- What arrives on standard input: either text that is not valid JSON
(`json.loads` raises, carrying a message) or a decoded request object. -/
inductive Stdin where
  | malformed (msg : String)
  | json (r : RawRequest)

/-- The observable outcome of one run of `main`: either a serialized list
of records on standard output, or a single serialized object whose one
field is the error message, on standard error. -/
inductive MainOutcome where
  | success (records : List FunctionRecord)
  | failure (error : String)
deriving DecidableEq, Repr

/-- The process exit code: `0` on success, `1` on any failure
(`sys.exit(1)` in the `except` branch). -/
def exitCode : MainOutcome → Nat
  | .success _ => 0
  | .failure _ => 1

/-- The message of `str(KeyError('file'))`, abstracted. -/
def keyErrorFile : String := "KeyError: file"

/-- The message of `str(KeyError('content'))`, abstracted. -/
def keyErrorContent : String := "KeyError: content"

/-- Embeds `main`: reads stdin, looks up `file` then `content`, parses, extracts,
and prints.  The single `except Exception` clause turns every raised
exception — malformed JSON, a missing key, or a parse error — into the same
outcome: one object with one `error` field and exit code 1. -/
def main_model (parse : String → String → Except String Node) :
    Stdin → MainOutcome
  | .malformed m => .failure m
  | .json r =>
    match r.file with
    | none => .failure keyErrorFile
    | some file =>
      match r.content with
      | none => .failure keyErrorContent
      | some content =>
        match parse content file with
        | .error e => .failure e
        | .ok tree => .success (extract_functions tree file)

/-- Modelled from the spec: a depth-first, pre-order traversal of a forest
(“the order visited by a depth-first, pre-order walk”): each node is
listed before its descendants, and a node's entire subtree is listed
before its right siblings.  This is the traversal order the spec ascribes
to the analyzer; it is compared against the embedded `walk`. -/
def preorderList : List Node → List Node
  | [] => []
  | n :: ns => n :: (preorderList (children n) ++ preorderList ns)
termination_by l => sizeList l
decreasing_by
  all_goals simp [sizeList]
  · have := sizeList_children_lt n
    omega
  · have := size_pos n
    omega

/-- Modelled from the spec: depth-first pre-order traversal of a tree. -/
def preorder (t : Node) : List Node := preorderList [t]

/-- Level-order (breadth-first) traversal of a forest, written level by
level: the nodes of the current level, then the traversal of the
concatenation of all their children.  The fuel argument bounds the number
of levels; `Node.size` is always enough. -/
def levelOrderFuel : Nat → List Node → List Node
  | 0, _ => []
  | _ + 1, [] => []
  | fuel + 1, n :: todo => (n :: todo) ++ levelOrderFuel fuel ((n :: todo).flatMap children)

/-- Level-order (breadth-first) traversal of a tree: level 0 is the root,
level `k+1` holds the children of level `k`'s nodes, and levels are listed
in increasing order. -/
def levelOrder (t : Node) : List Node := levelOrderFuel (Node.size t) [t]

mutual
/-- Replace every `AsyncFunctionDef` node by the `FunctionDef` node with
identical fields, everywhere in a tree (used to state that asynchronous
definitions are treated identically to synchronous ones). -/
def toSync : Node → Node
  | .Module body => .Module (toSyncList body)
  | .FunctionDef nm ln el decs defaults body =>
      .FunctionDef nm ln el (toSyncList decs) (toSyncList defaults) (toSyncList body)
  | .AsyncFunctionDef nm ln el decs defaults body =>
      .FunctionDef nm ln el (toSyncList decs) (toSyncList defaults) (toSyncList body)
  | .ClassDef nm body => .ClassDef nm (toSyncList body)
  | .Call f args => .Call (toSync f) (toSyncList args)
  | .Name s => .Name s
  | .Attribute v a => .Attribute (toSync v) a
  | .Lambda b => .Lambda (toSync b)
  | .Other kids => .Other (toSyncList kids)

/-- The map `toSync` applied to every tree of a forest. -/
def toSyncList : List Node → List Node
  | [] => []
  | n :: ns => toSync n :: toSyncList ns
end

/-- Whether a node is a definition node (`isinstance(node, ast.FunctionDef)
or isinstance(node, ast.AsyncFunctionDef)`). -/
def isDef : Node → Bool
  | .FunctionDef _ _ _ _ _ _ => true
  | .AsyncFunctionDef _ _ _ _ _ _ => true
  | _ => false

/-- Whether a node's reported line numbers are consistent: when the grammar
reports an `end_lineno` for a definition, it is not smaller than `lineno`.
Every tree produced by CPython's parser satisfies this. -/
def linesOk : Node → Bool
  | .FunctionDef _ ln el _ _ _ => match el with | none => true | some e => ln ≤ e
  | .AsyncFunctionDef _ ln el _ _ _ => match el with | none => true | some e => ln ≤ e
  | _ => true

/-- A tree is line-well-formed when every node in it is. -/
def wellFormedLines (t : Node) : Bool := (walk t).all linesOk

/-- The AST of `def b(): helper()` (lines 2–3), nested inside `exA`. -/
def exB : Node := .FunctionDef "b" 2 (some 3) [] [] [.Other [.Call (.Name "helper") []]]

/-- The AST of `def a():` (lines 1–3) whose body is the nested definition `exB`. -/
def exA : Node := .FunctionDef "a" 1 (some 3) [] [] [exB]

/-- The AST of `def c(): x.process()` (lines 4–5). -/
def exC : Node := .FunctionDef "c" 4 (some 5) [] [] [.Other [.Call (.Attribute (.Name "x") "process") []]]

/-- A module defining `a` (with nested `b`) and then `c`. -/
def exTree : Node := .Module [exA, exC]

/-- The AST of `def g(): pass` carrying the bare decorator `@deco`:
in the Python AST the decorator is a `Name` expression, not a `Call`. -/
def exG : Node := .FunctionDef "g" 2 (some 3) [.Name "deco"] [] [.Other []]

/-- A module whose only definition is the bare-decorated `exG`. -/
def exDecoTree : Node := .Module [exG]

/-- The AST of `async def af(): q()` (lines 1–2). -/
def exAsync : Node := .AsyncFunctionDef "af" 1 (some 2) [] [] [.Other [.Call (.Name "q") []]]

/-- A module whose only definition is the asynchronous `exAsync`. -/
def exAsyncTree : Node := .Module [exAsync]

/-- A parse function used to instantiate theorems about `analyze` and
`main_model`: content `"ok"` parses to the example module, everything else
is a syntax error. -/
def parseStub (content : String) (_file : String) : Except String Node :=
  if content = "ok" then .ok exTree else .error "invalid syntax"

theorem sizeList_eq_zero {l : List Node} (h : sizeList l = 0) : l = [] := by
  cases l with
  | nil => rfl
  | cons n ns =>
    have := size_pos n
    simp [sizeList] at h
    omega

theorem walk_cons (n : Node) : walk n = n :: walkList (children n) := by
  simp [walk, walkList]

theorem toSyncList_append (a b : List Node) :
    toSyncList (a ++ b) = toSyncList a ++ toSyncList b := by
  induction a with
  | nil => simp [toSyncList]
  | cons n ns ih => simp [toSyncList, ih]

theorem children_toSync (n : Node) :
    children (toSync n) = toSyncList (children n) := by
  cases n <;> simp [children, toSync, toSyncList, toSyncList_append]

theorem walkList_toSync_aux :
    ∀ (k : Nat) (l : List Node), sizeList l ≤ k →
      walkList (toSyncList l) = toSyncList (walkList l) := by
  intro k
  induction k with
  | zero =>
    intro l hl
    have : l = [] := sizeList_eq_zero (Nat.le_zero.mp hl)
    subst this
    simp [toSyncList, walkList]
  | succ k ih =>
    intro l hl
    match l with
    | [] => simp [toSyncList, walkList]
    | n :: todo =>
      have hsz : sizeList (todo ++ children n) ≤ k := by
        have h1 := sizeList_children_lt n
        simp [sizeList, sizeList_append] at hl ⊢
        omega
      simp only [toSyncList, walkList]
      rw [children_toSync, ← toSyncList_append, ih _ hsz]

theorem walkList_toSync (l : List Node) :
    walkList (toSyncList l) = toSyncList (walkList l) :=
  walkList_toSync_aux (sizeList l) l le_rfl

theorem callTarget_toSync (n : Node) : callTarget (toSync n) = callTarget n := by
  cases n with
  | Call f args => cases f <;> simp [toSync, callTarget]
  | _ => simp [toSync, callTarget]

theorem filterMap_callTarget_toSyncList (l : List Node) :
    (toSyncList l).filterMap callTarget = l.filterMap callTarget := by
  induction l with
  | nil => simp [toSyncList]
  | cons n ns ih => simp [toSyncList, List.filterMap_cons, callTarget_toSync, ih]

theorem extract_function_calls_toSync (n : Node) :
    extract_function_calls (toSync n) = extract_function_calls n := by
  have h : walkList [toSync n] = toSyncList (walkList [n]) := by
    have := walkList_toSync [n]
    simpa [toSyncList] using this
  simp [extract_function_calls, walk, h, filterMap_callTarget_toSyncList]

theorem recordOf_toSync (n : Node) : recordOf (toSync n) = recordOf n := by
  cases n with
  | FunctionDef nm ln el decs defaults body =>
    have h := extract_function_calls_toSync (.FunctionDef nm ln el decs defaults body)
    simp [toSync] at h
    simp [toSync, recordOf, h]
  | AsyncFunctionDef nm ln el decs defaults body =>
    have h := extract_function_calls_toSync (.AsyncFunctionDef nm ln el decs defaults body)
    simp [toSync] at h
    simp [toSync, recordOf, h]
  | _ => simp [toSync, recordOf]

theorem filterMap_recordOf_toSyncList (l : List Node) :
    (toSyncList l).filterMap recordOf = l.filterMap recordOf := by
  induction l with
  | nil => simp [toSyncList]
  | cons n ns ih => simp [toSyncList, List.filterMap_cons, recordOf_toSync, ih]

theorem extract_functions_toSync (t : Node) (f : String) :
    extract_functions (toSync t) f = extract_functions t f := by
  have h : walkList [toSync t] = toSyncList (walkList [t]) := by
    have := walkList_toSync [t]
    simpa [toSyncList] using this
  simp [extract_functions, walk, h, filterMap_recordOf_toSyncList]

theorem walkList_queue_split (l₁ : List Node) :
    ∀ l₂ : List Node, walkList (l₁ ++ l₂) = l₁ ++ walkList (l₂ ++ l₁.flatMap children) := by
  induction l₁ with
  | nil => intro l₂; simp
  | cons n l₁ ih =>
    intro l₂
    have : (n :: l₁) ++ l₂ = n :: (l₁ ++ l₂) := rfl
    rw [this]
    simp only [walkList]
    rw [List.append_assoc, ih (l₂ ++ children n)]
    simp [List.flatMap_cons, List.append_assoc]

theorem sizeList_flatMap_children_le (l : List Node) :
    sizeList (l.flatMap children) + l.length ≤ sizeList l := by
  induction l with
  | nil => simp [sizeList]
  | cons n ns ih =>
    have := sizeList_children_lt n
    simp [List.flatMap_cons, sizeList, sizeList_append]
    omega

theorem walkList_eq_levelOrderFuel :
    ∀ (fuel : Nat) (l : List Node), sizeList l ≤ fuel →
      walkList l = levelOrderFuel fuel l := by
  intro fuel
  induction fuel with
  | zero =>
    intro l hl
    have : l = [] := sizeList_eq_zero (Nat.le_zero.mp hl)
    subst this
    simp [walkList, levelOrderFuel]
  | succ fuel ih =>
    intro l hl
    match l with
    | [] => simp [walkList, levelOrderFuel]
    | n :: todo =>
      have hsz : sizeList ((n :: todo).flatMap children) ≤ fuel := by
        have h1 := sizeList_flatMap_children_le (n :: todo)
        have h2 : (n :: todo).length = todo.length + 1 := by simp
        omega
      rw [levelOrderFuel, ← ih _ hsz]
      have := walkList_queue_split (n :: todo) []
      simpa using this

theorem walk_eq_levelOrder (t : Node) : walk t = levelOrder t := by
  have : sizeList [t] ≤ Node.size t := by simp [sizeList]
  exact walkList_eq_levelOrderFuel (Node.size t) [t] this

theorem mem_walkList_iff_aux :
    ∀ (k : Nat) (l : List Node), sizeList l ≤ k → ∀ a : Node,
      (a ∈ walkList l ↔ ∃ n, n ∈ l ∧ a ∈ walk n) := by
  intro k
  induction k with
  | zero =>
    intro l hl a
    have : l = [] := sizeList_eq_zero (Nat.le_zero.mp hl)
    subst this
    simp [walkList]
  | succ k ih =>
    intro l hl a
    match l with
    | [] => simp [walkList]
    | n :: todo =>
      have hsz : sizeList (todo ++ children n) ≤ k := by
        have h1 := sizeList_children_lt n
        simp [sizeList, sizeList_append] at hl ⊢
        omega
      have hch : sizeList (children n) ≤ k := by
        have h1 := sizeList_children_lt n
        have h2 := size_pos n
        simp [sizeList] at hl
        omega
      simp only [walkList, List.mem_cons, ih _ hsz a, List.mem_append]
      constructor
      · rintro (rfl | ⟨m, hm | hm, hma⟩)
        · exact ⟨a, Or.inl rfl, by rw [walk_cons]; exact List.mem_cons_self _ _⟩
        · exact ⟨m, Or.inr hm, hma⟩
        · refine ⟨n, Or.inl rfl, ?_⟩
          rw [walk_cons]
          exact List.mem_cons.mpr (Or.inr ((ih _ hch a).2 ⟨m, hm, hma⟩))
      · rintro ⟨m, rfl | hm, hma⟩
        · rw [walk_cons] at hma
          rcases List.mem_cons.mp hma with rfl | h2
          · exact Or.inl rfl
          · obtain ⟨m2, hm2, hma2⟩ := (ih _ hch a).1 h2
            exact Or.inr ⟨m2, Or.inr hm2, hma2⟩
        · exact Or.inr ⟨m, Or.inl hm, hma⟩

theorem mem_walkList_iff (l : List Node) (a : Node) :
    a ∈ walkList l ↔ ∃ n, n ∈ l ∧ a ∈ walk n :=
  mem_walkList_iff_aux (sizeList l) l le_rfl a

theorem callTarget_eq_some (c : Node) (s : String) :
    callTarget c = some s ↔
      (∃ args, c = .Call (.Name s) args) ∨ ∃ v args, c = .Call (.Attribute v s) args := by
  cases c with
  | Call f args =>
    cases f <;> simp [callTarget] <;> constructor <;> intro h <;> simp_all
  | _ => simp [callTarget]

theorem mem_extract_function_calls (d : Node) (s : String) :
    s ∈ extract_function_calls d ↔ ∃ c, c ∈ walk d ∧ callTarget c = some s := by
  simp [extract_function_calls, List.mem_filterMap]

theorem recordOf_of_isDef (d : Node) (h : isDef d = true) :
    ∃ r, recordOf d = some r ∧ r.calls = (extract_function_calls d).dedup := by
  cases d <;> simp_all [isDef, recordOf]

theorem recordOf_calls_nodup {d : Node} {r : FunctionRecord}
    (h : recordOf d = some r) : r.calls.Nodup := by
  cases d <;> simp [recordOf] at h <;> rw [← h] <;> exact (List.nodup_dedup _)

theorem recordOf_start_le_end {d : Node} {r : FunctionRecord}
    (hl : linesOk d = true) (h : recordOf d = some r) :
    r.start_line ≤ r.end_line := by
  cases d with
  | FunctionDef nm ln el decs defaults body =>
    cases el with
    | none => simp [recordOf] at h; rw [← h]
    | some e =>
      simp [linesOk] at hl
      simp [recordOf] at h
      rw [← h]
      simpa using hl
  | AsyncFunctionDef nm ln el decs defaults body =>
    cases el with
    | none => simp [recordOf] at h; rw [← h]
    | some e =>
      simp [linesOk] at hl
      simp [recordOf] at h
      rw [← h]
      simpa using hl
  | _ => simp [recordOf] at h

/-- C1 (counterexample): on the module defining `a` (with nested `b`) and
then `c`, the analyzer's record sequence is NOT the depth-first pre-order
sequence of definitions: the code's `ast.walk` is breadth-first, so it
yields `a, c, b` while pre-order yields `a, b, c`. -/
theorem c1_counterexample :
    extract_functions exTree "f" ≠ (preorder exTree).filterMap recordOf := by
  have h1 : extract_functions exTree "f" =
      [{ name := "a", start_line := 1, end_line := 3, calls := ["helper"] },
       { name := "c", start_line := 4, end_line := 5, calls := ["process"] },
       { name := "b", start_line := 2, end_line := 3, calls := ["helper"] }] := by
    simp [extract_functions, walk, walkList, exTree, exA, exB, exC, children, recordOf,
          extract_function_calls, callTarget, List.dedup]
  have h2 : (preorder exTree).filterMap recordOf =
      [{ name := "a", start_line := 1, end_line := 3, calls := ["helper"] },
       { name := "b", start_line := 2, end_line := 3, calls := ["helper"] },
       { name := "c", start_line := 4, end_line := 5, calls := ["process"] }] := by
    simp [preorder, preorderList, walk, walkList, exTree, exA, exB, exC, children, recordOf,
          extract_function_calls, callTarget, List.dedup]
  rw [h1, h2]
  decide

/-- C1 (amended): for every input tree, the sequence of FunctionRecords
lists the function and async-function definitions in the order visited by
a breadth-first (level-order) traversal of the syntax tree — the order of
CPython's queue-based `ast.walk` — not a depth-first pre-order traversal. -/
theorem c1_records_in_level_order (t : Node) (f : String) :
    extract_functions t f = (levelOrder t).filterMap recordOf := by
  rw [extract_functions, walk_eq_levelOrder]

/-- C2: the `calls` set of a definition is collected over the definition's
entire subtree: whenever a definition node `d` occurs anywhere in the tree
and a call expression with a statically named target `s` occurs anywhere in
`d`'s subtree — including inside a nested function definition — the
analyzer's record for `d` contains `s` in its `calls`.  Since `d` ranges
over every enclosing definition whose subtree contains the call, the call
is attributed to all of them, not exclusively to the innermost one. -/
theorem c2_calls_over_entire_subtree (t : Node) (f : String) (d : Node)
    (hd : d ∈ walk t) (hdef : isDef d = true) (c : Node) (hc : c ∈ walk d)
    (s : String) (hs : callTarget c = some s) :
    ∃ r, r ∈ extract_functions t f ∧ recordOf d = some r ∧ s ∈ r.calls := by
  obtain ⟨r, hr, hcalls⟩ := recordOf_of_isDef d hdef
  refine ⟨r, ?_, hr, ?_⟩
  · simpa [extract_functions] using List.mem_filterMap.mpr ⟨d, hd, hr⟩
  · rw [hcalls, List.mem_dedup]
    exact (mem_extract_function_calls d s).2 ⟨c, hc, hs⟩

/-- C2 (witness): in the module where `a` encloses the nested definition
`b` whose body calls `helper()`, the name `helper` is attributed to the
enclosing definition `a` as well, not only to `b`. -/
theorem c2_witness :
    ∃ r, r ∈ extract_functions exTree "f" ∧ recordOf exA = some r ∧ "helper" ∈ r.calls :=
  c2_calls_over_entire_subtree exTree "f" exA
    (by simp [walk, walkList, exTree, exA, exB, exC, children])
    (by simp [isDef, exA])
    (.Call (.Name "helper") [])
    (by simp [walk, walkList, exA, exB, children])
    "helper" (by simp [callTarget])

/-- C3: `analyze` returns an error if and only if parsing the content
fails: for every successful parse it returns the (possibly empty) record
sequence and never an error, for every parse failure it returns that
single error; the `Except` result is one or the other, so no partial
record list can accompany an error. -/
theorem c3_error_iff_invalid (parse : String → String → Except String Node)
    (file content : String) :
    ((∃ e, analyze parse file content = .error e) ↔ (∃ e, parse content file = .error e)) ∧
    (∀ t, parse content file = .ok t →
        analyze parse file content = .ok (extract_functions t file)) ∧
    (∀ e, parse content file = .error e → analyze parse file content = .error e) := by
  cases h : parse content file with
  | error e => simp [analyze, h]
  | ok t => simp [analyze, h]

/-- C3 (witness): with a parse function that accepts exactly the content
`"ok"`, `analyze` yields the record sequence on `"ok"` and the parse error
on `"bad"`. -/
theorem c3_witness :
    analyze parseStub "f" "ok" = .ok (extract_functions exTree "f") ∧
    analyze parseStub "f" "bad" = .error "invalid syntax" :=
  ⟨(c3_error_iff_invalid parseStub "f" "ok").2.1 exTree (by simp [parseStub]),
   (c3_error_iff_invalid parseStub "f" "bad").2.2 "invalid syntax" (by simp [parseStub])⟩

/-- C4: a name `s` is collected as a call target inside a definition's
subtree exactly when the subtree contains a call whose callee is the bare
name `s`, or a call whose callee is an attribute access whose final
attribute is `s`.  In particular `a.b.c()` contributes exactly `c`, and a
call through any other callee shape (a call result, a subscript, a lambda
literal) contributes nothing. -/
theorem c4_call_target_shapes (d : Node) (s : String) :
    s ∈ extract_function_calls d ↔
      ∃ c, c ∈ walk d ∧
        ((∃ args, c = .Call (.Name s) args) ∨ ∃ v args, c = .Call (.Attribute v s) args) := by
  simp only [mem_extract_function_calls, callTarget_eq_some]

/-- C4 (witness): in `def c(): x.process()` the attribute call through
receiver `x` contributes exactly the final attribute name `process`, and
the receiver name `x` is not collected. -/
theorem c4_witness :
    "process" ∈ extract_function_calls exC ∧ "x" ∉ extract_function_calls exC := by
  constructor
  · exact (c4_call_target_shapes exC "process").2
      ⟨.Call (.Attribute (.Name "x") "process") [],
       by simp [walk, walkList, exC, children], Or.inr ⟨.Name "x", [], rfl⟩⟩
  · intro hmem
    obtain ⟨c, hc, hshape⟩ := (c4_call_target_shapes exC "x").1 hmem
    simp [walk, walkList, exC, children] at hc
    rcases hc with rfl | rfl | rfl | rfl | rfl <;> simp_all

/-- C5: in any successful result over a line-well-formed tree (as every
tree produced by the parser is), every FunctionRecord `r` satisfies
`r.start_line ≤ r.end_line`, and `r.calls` contains no duplicates. -/
theorem c5_record_invariants (t : Node) (f : String)
    (h : wellFormedLines t = true) (r : FunctionRecord)
    (hr : r ∈ extract_functions t f) :
    r.start_line ≤ r.end_line ∧ r.calls.Nodup := by
  obtain ⟨d, hd, hrec⟩ := List.mem_filterMap.mp hr
  have hlines : linesOk d = true := List.all_eq_true.mp h d hd
  exact ⟨recordOf_start_le_end hlines hrec, recordOf_calls_nodup hrec⟩

/-- C5 (witness): the invariants hold for the record of `a` in the
example module. -/
theorem c5_witness :
    (1 : Nat) ≤ 3 ∧ (["helper"] : List String).Nodup := by
  have h := c5_record_invariants exTree "f"
    (by simp [wellFormedLines, walk, walkList, exTree, exA, exB, exC, children, linesOk])
    { name := "a", start_line := 1, end_line := 3, calls := ["helper"] }
    (by simp [extract_functions, walk, walkList, exTree, exA, exB, exC, children, recordOf,
              extract_function_calls, callTarget, List.dedup])
  exact h

/-- C6: for every input tree, every function and async-function definition
node anywhere in the tree — at any nesting depth, inside classes,
functions or conditional blocks — yields a FunctionRecord in the result;
and asynchronous definitions are treated identically to synchronous ones:
replacing every async definition by the synchronous definition with the
same fields leaves the result unchanged. -/
theorem c6_every_def_has_record (t : Node) (f : String) :
    (∀ d, d ∈ walk t → isDef d = true →
        ∃ r, r ∈ extract_functions t f ∧ recordOf d = some r) ∧
    extract_functions (toSync t) f = extract_functions t f := by
  constructor
  · intro d hd hdef
    obtain ⟨r, hr, _⟩ := recordOf_of_isDef d hdef
    exact ⟨r, by simpa [extract_functions] using List.mem_filterMap.mpr ⟨d, hd, hr⟩, hr⟩
  · exact extract_functions_toSync t f

/-- C6 (witness): the asynchronous definition `af` yields a record, and
rewriting it to a synchronous definition leaves the result unchanged. -/
theorem c6_witness :
    (∃ r, r ∈ extract_functions exAsyncTree "f" ∧ recordOf exAsync = some r) ∧
    extract_functions (toSync exAsyncTree) "f" = extract_functions exAsyncTree "f" :=
  ⟨(c6_every_def_has_record exAsyncTree "f").1 exAsync
     (by simp [walk, walkList, exAsyncTree, exAsync, children])
     (by simp [isDef, exAsync]),
   (c6_every_def_has_record exAsyncTree "f").2⟩

/-- C7: `analyze` is a pure function of its two inputs: two invocations
with identical `(file, content)` (under the same grammar, i.e. the same
parse function) yield equal results; the discovery order is deterministic
for a given input. -/
theorem c7_deterministic (parse : String → String → Except String Node)
    (file content file₂ content₂ : String)
    (hf : file = file₂) (hc : content = content₂) :
    analyze parse file content = analyze parse file₂ content₂ := by
  rw [hf, hc]

/-- C7 (witness): two invocations on the identical concrete request give
equal results. -/
theorem c7_witness :
    analyze parseStub "f" "ok" = analyze parseStub "f" "ok" :=
  c7_deterministic parseStub "f" "ok" "f" "ok" rfl rfl

/-- C8: every exception during a run of `main` — malformed JSON on stdin,
a missing `file` or `content` field, or a parse error — produces the same
outcome shape: a single object with one `error` field on the error channel
and exit code 1; in particular a malformed-request failure is literally
equal to a parse-error failure with the same message, so the shape gives
no way to distinguish them. -/
theorem c8_uniform_error_shape (parse : String → String → Except String Node)
    (m file content : String) (o : Option String)
    (hp : parse content file = .error m) :
    main_model parse (.malformed m) = .failure m ∧
    main_model parse (.json ⟨some file, some content⟩) = .failure m ∧
    main_model parse (.json ⟨none, o⟩) = .failure keyErrorFile ∧
    main_model parse (.json ⟨some file, none⟩) = .failure keyErrorContent ∧
    main_model parse (.malformed m) = main_model parse (.json ⟨some file, some content⟩) ∧
    (∀ msg, exitCode (.failure msg) = 1) ∧
    (∀ rs, exitCode (.success rs) = 0) := by
  simp [main_model, hp, exitCode]

/-- C8 (witness): instantiated with a parse function that always fails
with message `"boom"`. -/
theorem c8_witness :
    main_model (fun _ _ => .error "boom") (.malformed "boom") = .failure "boom" ∧
    main_model (fun _ _ => .error "boom") (.json ⟨some "x", some "y"⟩) = .failure "boom" ∧
    main_model (fun _ _ => .error "boom") (.json ⟨none, none⟩) = .failure keyErrorFile ∧
    main_model (fun _ _ => .error "boom") (.json ⟨some "x", none⟩) = .failure keyErrorContent ∧
    main_model (fun _ _ => .error "boom") (.malformed "boom") =
      main_model (fun _ _ => .error "boom") (.json ⟨some "x", some "y"⟩) ∧
    (∀ msg, exitCode (.failure msg) = 1) ∧
    (∀ rs, exitCode (.success rs) = 0) :=
  c8_uniform_error_shape (fun _ _ => .error "boom") "boom" "x" "y" none rfl

/-- C9 (counterexample): a bare decorator `@deco` is a `Name` node, not a
call expression, so it contributes nothing: the record of the decorated
definition `g` has an empty `calls` set — `deco` is absent. -/
theorem c9_counterexample :
    ∃ r, r ∈ extract_functions exDecoTree "f" ∧ r.name = "g" ∧ "deco" ∉ r.calls := by
  refine ⟨{ name := "g", start_line := 2, end_line := 3, calls := [] }, ?_, rfl, by simp⟩
  simp [extract_functions, walk, walkList, exDecoTree, exG, children, recordOf,
        extract_function_calls, callTarget, List.dedup]

/-- C9 (amended): call expressions that lie inside a definition node but
outside its body — in decorator expressions or default-argument values —
are included in that definition's `calls` set; but a bare decorator
`@deco` contributes nothing, because a bare name is not a call expression
(only a decorator call such as `@deco(...)` contributes `deco`). -/
theorem c9_decorator_and_default_calls (nm : String) (ln : Nat)
    (el : Option Nat) (decs defaults body : List Node) (c : Node) (s : String)
    (hc : c ∈ walkList (decs ++ defaults)) (hs : callTarget c = some s) :
    s ∈ extract_function_calls (.FunctionDef nm ln el decs defaults body) ∧
    ∀ id, callTarget (.Name id) = none := by
  refine ⟨?_, fun _ => rfl⟩
  obtain ⟨m, hm, hcm⟩ := (mem_walkList_iff _ c).1 hc
  have hmch : m ∈ children (.FunctionDef nm ln el decs defaults body) := by
    simp only [children, List.mem_append]
    rcases List.mem_append.mp hm with h | h
    · exact Or.inr h
    · exact Or.inl (Or.inl h)
  refine (mem_extract_function_calls _ s).2 ⟨c, ?_, hs⟩
  rw [walk_cons]
  exact List.mem_cons.mpr (Or.inr ((mem_walkList_iff _ c).2 ⟨m, hmch, hcm⟩))

/-- C9 (witness): the decorator call `@deco()` on `h` contributes the name
`deco` to `h`'s calls. -/
theorem c9_witness :
    "deco" ∈ extract_function_calls
        (.FunctionDef "h" 2 (some 3) [.Call (.Name "deco") []] [] [.Other []]) ∧
    ∀ id, callTarget (.Name id) = none :=
  c9_decorator_and_default_calls "h" 2 (some 3) [.Call (.Name "deco") []] [] [.Other []]
    (.Call (.Name "deco") []) "deco"
    (by simp [walkList, children])
    (by simp [callTarget])

/-- C10: only `def` and `async def` definition nodes produce
FunctionRecords: every record in the result originates from a node
satisfying `isDef`, and a lambda node never does (`isDef` is false on it
and it yields no record), at any nesting depth. -/
theorem c10_only_defs_yield_records (t : Node) (f : String)
    (r : FunctionRecord) (hr : r ∈ extract_functions t f) :
    (∃ d, d ∈ walk t ∧ isDef d = true ∧ recordOf d = some r) ∧
    ∀ b, isDef (Node.Lambda b) = false ∧ recordOf (Node.Lambda b) = none := by
  refine ⟨?_, fun _ => ⟨rfl, rfl⟩⟩
  obtain ⟨d, hd, hrec⟩ := List.mem_filterMap.mp hr
  refine ⟨d, hd, ?_, hrec⟩
  cases d <;> simp [recordOf] at hrec <;> simp [isDef]

/-- C10 (witness): the record of `a` in the example module originates from
a definition node, and lambdas yield no records. -/
theorem c10_witness :
    (∃ d, d ∈ walk exTree ∧ isDef d = true ∧
        recordOf d = some { name := "a", start_line := 1, end_line := 3, calls := ["helper"] }) ∧
    ∀ b, isDef (Node.Lambda b) = false ∧ recordOf (Node.Lambda b) = none :=
  c10_only_defs_yield_records exTree "f"
    { name := "a", start_line := 1, end_line := 3, calls := ["helper"] }
    (by simp [extract_functions, walk, walkList, exTree, exA, exB, exC, children, recordOf,
              extract_function_calls, callTarget, List.dedup])

end Cartographer
